import Mathlib

/-!
Verification of the Wolf of Allegro auction engine.

Shallow embedding of the data model (src/engine/models.py), the team agent
(src/engine/team.py), the bid parser (src/engine/llm_client.py) and the
auction engine (src/engine/simulation.py).  Machine integers are modelled
as unbounded `Int`/`Nat` (Python integers are unbounded).  The external
reasoning service is modelled as an oracle `GameState → Option String`
(the response text, `none` for a failed request), and `random.shuffle`
as an arbitrary reordering function supplied per round and iteration.
-/

namespace Wolf

/-! ## Data model (src/engine/models.py) -/

/-- `Item` from models.py: name, quality 0..100, required flag.
`model_post_init` forces `quality = 0` for non-required items; that
normalisation lives in `mkItem` below, which models pydantic validation. -/
structure Item where
  name : String
  quality : Int
  is_required : Bool
deriving Repr, DecidableEq

/-- `Bid` from models.py. -/
structure Bid where
  team_name : String
  amount : Int
  iteration : Nat
deriving Repr, DecidableEq

/-- `AuctionResult` from models.py. -/
structure AuctionResult where
  item : Item
  winning_team : Option String
  winning_bid : Int
  all_bids : List Bid
  iterations : Nat
deriving Repr, DecidableEq

/-- `TeamState` from models.py joined with the mutable `Team` of team.py:
name, remaining budget, acquired items.  `get_state` returns a deep copy,
which is the identity for an immutable Lean value. -/
structure Team where
  name : String
  budget : Int
  acquired_items : List Item
deriving Repr, DecidableEq

/-- `TeamState.required_count` property. -/
def requiredCount (t : Team) : Nat := (t.acquired_items.filter (·.is_required)).length

/-- `TeamState.total_quality` property. -/
def totalQuality (t : Team) : Int := (t.acquired_items.map (·.quality)).sum

/-- `GameState` from models.py: the per-agent, per-iteration snapshot. -/
structure GameState where
  current_item : Item
  my_team : Team
  opponent_teams : List Team
  remaining_items : List Item
  auction_history : List AuctionResult
  current_iteration : Nat
  round_number : Nat
  current_highest_bid : Int
  current_highest_bidder : Option String
  bids_history : List Bid
deriving Repr, DecidableEq

/-- `FinalRanking` from models.py. -/
structure FinalRanking where
  rank : Nat
  team_name : String
  required_count : Nat
  total_quality : Int
  remaining_budget : Int
  items : List String
deriving Repr, DecidableEq

/-! ## Bid parsing (src/engine/llm_client.py, `parse_bid_response`) -/

/-- Python `str.strip()`: drop whitespace from both ends. -/
def stripChars (cs : List Char) : List Char :=
  ((cs.dropWhile Char.isWhitespace).reverse.dropWhile Char.isWhitespace).reverse

/-- The maximal run of leading decimal digits, i.e. what the greedy
regex atom matches at the current position. -/
def leadingDigits (cs : List Char) : List Char := cs.takeWhile (·.isDigit)

/-- Decimal value of a digit run (`int()` on the matched text). -/
def digitsToNat (ds : List Char) : Nat :=
  ds.foldl (fun acc c => 10 * acc + (c.toNat - 48)) 0

/-- Semantics of `re.search` with the anchored pattern used in
`parse_bid_response`: an optional minus sign followed by one or more
digits, matched only at the very start of the text. -/
def leadingIntLit : List Char → Option Int
  | [] => none
  | c :: rest =>
    if c = '-' then
      match leadingDigits rest with
      | [] => none
      | ds => some (-(digitsToNat ds : Int))
    else
      match leadingDigits (c :: rest) with
      | [] => none
      | ds => some ((digitsToNat ds : Int))

/-- `LLMClient.parse_bid_response`: strip the response, match the anchored
integer regex, coerce negatives to 0, default to 0 on no response /
no match. -/
def parse_bid_response (response : Option String) : Int :=
  match response with
  | none => 0
  | some r =>
    match leadingIntLit (stripChars r.data) with
    | none => 0
    | some bid => if bid < 0 then 0 else bid

/-- The parsing behaviour claimed by the spec: the FIRST integer literal
occurring ANYWHERE in the response text (kept separate so it can be
compared with the code's anchored behaviour). -/
def firstIntAnywhere : List Char → Option Int
  | [] => none
  | c :: rest =>
    if c = '-' then
      match leadingDigits rest with
      | [] => firstIntAnywhere rest
      | ds => some (-(digitsToNat ds : Int))
    else if c.isDigit then
      some ((digitsToNat (leadingDigits (c :: rest)) : Int))
    else
      firstIntAnywhere rest

/-- The claimed parser: first integer literal anywhere, 0 on absence,
negatives coerced to 0. -/
def parse_bid_claimed (response : Option String) : Int :=
  match response with
  | none => 0
  | some r =>
    match firstIntAnywhere r.data with
    | none => 0
    | some bid => if bid < 0 then 0 else bid

/-- Helper for the amended parsing contract: on a stripped text, the
result is the value of the leading digit run when the text starts with a
digit, and 0 in every other case (including a leading minus sign). -/
def parseSpecList (cs : List Char) : Int :=
  match cs with
  | [] => 0
  | c :: rest =>
    if c.isDigit then (digitsToNat (leadingDigits (c :: rest)) : Int) else 0

/-- The amended parsing contract: only an integer literal at the very
start of the whitespace-stripped response is recognised; everything
else (no response, leading non-digit text, negative literal) yields 0.
Written as an independent case split for comparison with the code. -/
def parse_bid_amended (response : Option String) : Int :=
  match response with
  | none => 0
  | some r => parseSpecList (stripChars r.data)

/-! ## Scenario loading (src/engine/simulation.py, `_load_scenario`) -/

/-- One raw catalog entry: each JSON key either present with a value or
absent, in either of the two casing conventions. -/
structure RawEntry where
  name : Option String
  Name : Option String
  quality : Option Int
  Quality : Option Int
  is_required : Option Bool
  IsRequired : Option Bool
deriving Repr, DecidableEq

/-- Python `a or b` on an optional string: `None` and `""` are falsy. -/
def pyOrStr : Option String → Option String → Option String
  | some s, b => if s = "" then b else some s
  | none, b => b

/-- Python `a or b` on an optional integer: `None` and `0` are falsy. -/
def pyOrInt : Option Int → Option Int → Option Int
  | some n, b => if n = 0 then b else some n
  | none, b => b

/-- The `normalized` dict built in `_load_scenario`:
`item_data.get("name") or item_data.get("Name")`, same for quality, and
an `in`-guarded lookup for the required flag. -/
def normalizedName (e : RawEntry) : Option String := pyOrStr e.name e.Name

def normalizedQuality (e : RawEntry) : Option Int := pyOrInt e.quality e.Quality

def normalizedRequired (e : RawEntry) : Option Bool :=
  if e.is_required.isSome then e.is_required else e.IsRequired

/-- Pydantic construction `Item(**normalized)`: every field must be
present (a `None` fails validation), quality must lie in 0..100, and
`model_post_init` then forces quality 0 on non-required items. -/
def mkItem (name : Option String) (quality : Option Int) (is_required : Option Bool) :
    Except String Item :=
  match name, quality, is_required with
  | some n, some q, some r =>
    if 0 ≤ q ∧ q ≤ 100 then
      Except.ok { name := n, quality := if r then q else 0, is_required := r }
    else
      Except.error "quality out of range"
  | _, _, _ => Except.error "validation error"

/-- Loading of a single catalog entry in `_load_scenario`. -/
def loadItem (e : RawEntry) : Except String Item :=
  mkItem (normalizedName e) (normalizedQuality e) (normalizedRequired e)

/-! ## The auction engine (src/engine/simulation.py)

The reasoning service is an oracle `GameState → Option String`; every
oracle call in one game receives a distinct
(round, iteration, team-name) triple inside its `GameState`, so an
arbitrary deterministic oracle covers every possible sequence of
service responses.  `random.shuffle` becomes an arbitrary reordering
`sh : Nat → Nat → List Team → List Team` of the team list, indexed by
round and iteration. -/

/-- The budget clamp at the end of `Team.get_bid`: a bid above the
team's current budget is capped to the budget. -/
def clampBid (bid budget : Int) : Int := if bid > budget then budget else bid

/-- `Team.get_bid`: render the game state, query the oracle, parse the
response, clamp to the team budget. -/
def getBid (oracle : GameState → Option String) (gs : GameState) (budget : Int) : Int :=
  clampBid (parse_bid_response (oracle gs)) budget

/-- `AuctionEngine._build_game_state`: the snapshot handed to one team.
Opponent filtering and remaining-item filtering compare by name, the
way `Team.__eq__`/`Item.__eq__` do. -/
def buildGameState (teams : List Team) (remaining : List Item)
    (history : List AuctionResult) (item : Item) (iteration round : Nat)
    (hb : Int) (hber : Option String) (histBids : List Bid) (team : Team) : GameState :=
  { current_item := item
    my_team := team
    opponent_teams := teams.filter (fun t => t.name ≠ team.name)
    remaining_items := remaining.filter (fun i => i.name ≠ item.name)
    auction_history := history
    current_iteration := iteration
    round_number := round
    current_highest_bid := hb
    current_highest_bidder := hber
    bids_history := histBids }

/-- One team's `Bid` within an iteration (the body of the inner loop of
`_run_single_auction`). -/
def teamBid (oracle : GameState → Option String) (teams : List Team)
    (remaining : List Item) (history : List AuctionResult) (item : Item)
    (iteration round : Nat) (hb : Int) (hber : Option String)
    (histBids : List Bid) (t : Team) : Bid :=
  ⟨t.name,
    getBid oracle
      (buildGameState teams remaining history item iteration round hb hber histBids t)
      t.budget,
    iteration⟩

/-- The game states built (and saved by `_save_game_state`) for the
teams of one iteration, in shuffled order. -/
def iterationStates (teams : List Team) (remaining : List Item)
    (history : List AuctionResult) (item : Item) (iteration round : Nat)
    (hb : Int) (hber : Option String) (histBids : List Bid)
    (order : List Team) : List GameState :=
  order.map (buildGameState teams remaining history item iteration round hb hber histBids)

/-- The `iteration_bids` list of one iteration, in shuffled order. -/
def iterationBids (oracle : GameState → Option String) (teams : List Team)
    (remaining : List Item) (history : List AuctionResult) (item : Item)
    (iteration round : Nat) (hb : Int) (hber : Option String)
    (histBids : List Bid) (order : List Team) : List Bid :=
  order.map (teamBid oracle teams remaining history item iteration round hb hber histBids)

/-- The maximum bid amount of an iteration
(`max(iteration_bids, key=lambda b: b.amount).amount`). -/
def maxAmt : List Bid → Int
  | [] => 0
  | b :: bs => bs.foldl (fun m x => max m x.amount) b.amount

/-- `tied_bids[0].team_name`: the team name of the first bid in
iteration order carrying the maximum amount. -/
def firstLeader (bids : List Bid) (m : Int) : String :=
  match bids.find? (fun b => b.amount == m) with
  | some b => b.team_name
  | none => ""

/-- Python truthiness of the optional leader name
(`and iteration_start_high_bidder`): `None` and `""` are falsy. -/
def pyTruthyStr : Option String → Bool
  | none => false
  | some s => !(s == "")

/-- `Team.win_item`: debit the price and append the item. -/
def winItemUpdate (item : Item) (price : Int) (t : Team) : Team :=
  ⟨t.name, t.budget - price, t.acquired_items ++ [item]⟩

/-- `next(t for t in self.teams if t.name == winner)` followed by
`winner.win_item(...)`: update the first team with the winning name. -/
def winTeams : List Team → String → Item → Int → List Team
  | [], _, _, _ => []
  | t :: ts, w, item, price =>
    if t.name = w then winItemUpdate item price t :: ts
    else t :: winTeams ts w item price

/-- What `_run_single_auction` produces: the `AuctionResult`, the team
list after a possible `win_item`, and the log of every game state handed
to a team (saved by `_save_game_state`). -/
structure LoopOut where
  result : AuctionResult
  teams : List Team
  log : List GameState
deriving Repr, DecidableEq

/-- The iteration loop of `_run_single_auction`.  `fuel` counts the
iterations still allowed (`max_iterations` at the top call), `it` is the
1-based iteration number, `allBids` is `all_bids`, `winHist` is
`winning_bids_history`, `hb`/`hber` are
`iteration_start_high_bid`/`iteration_start_high_bidder`. -/
def auctionLoop (sh : Nat → Nat → List Team → List Team)
    (oracle : GameState → Option String)
    (teams : List Team) (remaining : List Item) (history : List AuctionResult)
    (item : Item) (round maxIter : Nat) :
    Nat → Nat → List Bid → List Bid → Int → Option String → List GameState → LoopOut
  | 0, _, allBids, _, hb, hber, log =>
    if hb > 0 ∧ pyTruthyStr hber then
      ⟨⟨item, hber, hb, allBids, maxIter⟩, winTeams teams (hber.getD "") item hb, log⟩
    else
      ⟨⟨item, none, 0, allBids, maxIter⟩, teams, log⟩
  | fuel + 1, it, allBids, winHist, hb, hber, log =>
    let order := sh round it teams
    let states := iterationStates teams remaining history item it round hb hber winHist order
    let bids := iterationBids oracle teams remaining history item it round hb hber winHist order
    let allBids2 := allBids ++ bids
    let log2 := log ++ states
    if bids.isEmpty then
      auctionLoop sh oracle teams remaining history item round maxIter
        fuel (it + 1) allBids2 winHist hb hber log2
    else
      let m := maxAmt bids
      if m > hb then
        auctionLoop sh oracle teams remaining history item round maxIter
          fuel (it + 1) allBids2 (winHist ++ [⟨firstLeader bids m, m, it⟩])
          m (some (firstLeader bids m)) log2
      else
        if hb > 0 ∧ pyTruthyStr hber then
          ⟨⟨item, hber, hb, allBids2, it⟩, winTeams teams (hber.getD "") item hb, log2⟩
        else
          ⟨⟨item, none, 0, allBids2, it⟩, teams, log2⟩

/-- `AuctionEngine._run_single_auction`. -/
def runSingleAuction (sh : Nat → Nat → List Team → List Team)
    (oracle : GameState → Option String)
    (teams : List Team) (remaining : List Item) (history : List AuctionResult)
    (item : Item) (round maxIter : Nat) : LoopOut :=
  auctionLoop sh oracle teams remaining history item round maxIter
    maxIter 1 [] [] 0 none []

/-- `self.remaining_items.remove(item)` guarded by membership: drop the
first item with the same name, if any. -/
def removeFirstItem : List Item → Item → List Item
  | [], _ => []
  | i :: is, item => if i.name = item.name then is else i :: removeFirstItem is item

/-- The observable outcome of `AuctionEngine.run`: final team states,
the auction history, and the trace of team-state lists written by
`save_session_logs` after each item. -/
structure GameOut where
  teams : List Team
  results : List AuctionResult
  trace : List (List Team)
deriving Repr, DecidableEq

/-- The item loop of `AuctionEngine.run`. -/
def runGameAux (sh : Nat → Nat → List Team → List Team)
    (oracle : GameState → Option String) (maxIter : Nat) :
    List Item → Nat → List Team → List Item → List AuctionResult →
      List (List Team) → GameOut
  | [], _, teams, _, history, trace => ⟨teams, history, trace⟩
  | item :: todo, round, teams, remaining, history, trace =>
    let out := runSingleAuction sh oracle teams remaining history item round maxIter
    runGameAux sh oracle maxIter todo (round + 1) out.teams
      (removeFirstItem remaining item) (history ++ [out.result]) (trace ++ [out.teams])

/-- `AuctionEngine.run` without the final ranking computation: auction
every item in catalog order, round numbers starting at 1. -/
def runGame (sh : Nat → Nat → List Team → List Team)
    (oracle : GameState → Option String) (maxIter : Nat)
    (teams : List Team) (items : List Item) : GameOut :=
  runGameAux sh oracle maxIter items 1 teams items [] []

/-! ## Final rankings (src/engine/simulation.py, `_calculate_rankings`) -/

/-- One entry of `team_scores`. -/
structure ScoreRow where
  name : String
  required_count : Nat
  total_quality : Int
  budget : Int
  items : List String
deriving Repr, DecidableEq

/-- The `team_scores` row built from one team. -/
def scoreRow (t : Team) : ScoreRow :=
  ⟨t.name, requiredCount t, totalQuality t, t.budget, t.acquired_items.map (·.name)⟩

/-- The Python sort key tuple. -/
def scoreKey (s : ScoreRow) : Nat × Int × Int := (s.required_count, s.total_quality, s.budget)

/-- Lexicographic comparison of key tuples, exactly Python tuple `<=`. -/
def keyLe (x y : Nat × Int × Int) : Prop :=
  x.1 < y.1 ∨ (x.1 = y.1 ∧ (x.2.1 < y.2.1 ∨ (x.2.1 = y.2.1 ∧ x.2.2 ≤ y.2.2)))

instance : DecidableRel keyLe := fun x y => by unfold keyLe; infer_instance

/-- `a` sorts no later than `b` under `sort(key=..., reverse=True)`:
`a`'s key is lexicographically at least `b`'s. -/
def scoreGe (a b : ScoreRow) : Prop := keyLe (scoreKey b) (scoreKey a)

instance : DecidableRel scoreGe := fun a b => by unfold scoreGe keyLe; infer_instance

instance : IsTotal ScoreRow scoreGe :=
  ⟨by intro a b; unfold scoreGe keyLe; omega⟩

instance : IsTrans ScoreRow scoreGe :=
  ⟨by intro a b c h1 h2; unfold scoreGe keyLe at h1 h2 ⊢; omega⟩

/-- `team_scores.sort(key=..., reverse=True)`.  Python's sort is the
stable sort for this total preorder; the stable sort of a list under a
fixed total preorder is unique, so insertion sort computes it. -/
def sortedScores (teams : List Team) : List ScoreRow :=
  List.insertionSort scoreGe (teams.map scoreRow)

/-- `AuctionEngine._calculate_rankings`: sort, then number from 1. -/
def calculateRankings (teams : List Team) : List FinalRanking :=
  (sortedScores teams).enum.map
    (fun p => ⟨p.1 + 1, p.2.name, p.2.required_count, p.2.total_quality,
      p.2.budget, p.2.items⟩)

/-- Budget of the first team carrying a given name (0 if absent). -/
def budgetOf (teams : List Team) (n : String) : Int :=
  match teams.find? (fun t => t.name == n) with
  | some t => t.budget
  | none => 0

/-- The relation between the team lists before and after one item's
auction, together with the produced `AuctionResult`. -/
def budgetStep (prev next : List Team) (r : AuctionResult) : Prop :=
  next.map (·.name) = prev.map (·.name) ∧
  (∀ n, budgetOf next n = budgetOf prev n -
      (if r.winning_team = some n then r.winning_bid else 0)) ∧
  (∀ w, r.winning_team = some w →
      0 < r.winning_bid ∧ r.winning_bid ≤ budgetOf prev w) ∧
  (r.winning_team = none → next = prev ∧ r.winning_bid = 0) ∧
  ((∀ t ∈ prev, 0 ≤ t.budget) → (∀ t ∈ next, 0 ≤ t.budget))

/-- A whole game is a chain of `budgetStep`s. -/
def budgetChain : List Team → List (List Team) → List AuctionResult → Prop
  | _, [], [] => True
  | prev, st :: sts, r :: rs => budgetStep prev st r ∧ budgetChain st sts rs
  | _, _, _ => False

/-- A well-formed lowercase entry with quality 0 (a junk item). -/
def junkEntryLower : RawEntry :=
  { name := some "junk"
    Name := none
    quality := some 0
    Quality := none
    is_required := some false
    IsRequired := none }

/-- The same junk item written with capitalised keys. -/
def junkEntryCaps : RawEntry :=
  { name := none
    Name := some "junk"
    quality := none
    Quality := some 0
    is_required := none
    IsRequired := some false }

/-- A lowercase entry with nonzero quality, for contrast. -/
def gemEntryLower : RawEntry :=
  { name := some "gem"
    Name := none
    quality := some 50
    Quality := none
    is_required := some true
    IsRequired := none }

/-- The same gem entry with capitalised keys. -/
def gemEntryCaps : RawEntry :=
  { name := none
    Name := some "gem"
    quality := none
    Quality := some 50
    is_required := none
    IsRequired := some true }


/-! ## Concrete fixtures used in counterexamples and witnesses -/

/-- The identity shuffle: a legitimate draw of `random.shuffle` (any
permutation, including the identity, can be drawn). -/
def shId : Nat → Nat → List Team → List Team := fun _ _ ts => ts

/-- A required item of quality 50. -/
def itemA : Item := ⟨"A", 50, true⟩

/-- Two teams: X rich, Y with a budget of only 5. -/
def teamsXY : List Team := [⟨"X", 50, []⟩, ⟨"Y", 5, []⟩]

/-- A reasoning service on which X always answers 10 and Y always 0. -/
def oracleTenZero : GameState → Option String :=
  fun gs => if gs.my_team.name = "X" then some "10" else some "0"

/-- Two well-funded teams. -/
def teamsBig : List Team := [⟨"X", 1000, []⟩, ⟨"Y", 1000, []⟩]

/-- A reasoning service on which X always answers 100 and Y always 50. -/
def oracleHundredFifty : GameState → Option String :=
  fun gs => if gs.my_team.name = "X" then some "100" else some "50"

/-- A reasoning service on which everyone answers 0. -/
def oracleZero : GameState → Option String := fun _ => some "0"

/-- An iteration with X and Y tied at the maximum 100 and Z at 50. -/
def tiedBids : List Bid := [⟨"X", 100, 1⟩, ⟨"Y", 100, 1⟩, ⟨"Z", 50, 1⟩]


/-- A throwaway game state used only as the default of list lookups in
concrete statements. -/
def gsDummy : GameState :=
  buildGameState [] [] [] ⟨"", 0, false⟩ 0 0 0 none [] ⟨"", 0, []⟩

end Wolf

namespace Wolf

/-! ## Basic lemmas about the embedded operations -/

/-- The parsed bid is never negative (negatives are coerced to 0). -/
theorem parse_bid_response_nonneg (response : Option String) :
    0 ≤ parse_bid_response response := by
  cases response with
  | none => simp [parse_bid_response]
  | some r =>
    simp only [parse_bid_response]
    cases leadingIntLit (stripChars r.data) with
    | none => simp
    | some bid =>
      by_cases h : bid < 0
      · simp [h]
      · simp [h]; omega

/-- The clamped bid never exceeds the budget. -/
theorem clampBid_le (bid budget : Int) : clampBid bid budget ≤ budget := by
  unfold clampBid; split <;> omega

/-- The clamped bid of a nonnegative bid against a nonnegative budget is
nonnegative. -/
theorem clampBid_nonneg (bid budget : Int) (hb : 0 ≤ bid) (hB : 0 ≤ budget) :
    0 ≤ clampBid bid budget := by
  unfold clampBid; split <;> omega

/-- Fold step bound for `maxAmt`. -/
theorem maxAmt_foldl_le (bs : List Bid) (acc c : Int) (hacc : acc ≤ c)
    (h : ∀ b ∈ bs, b.amount ≤ c) :
    bs.foldl (fun m x => max m x.amount) acc ≤ c := by
  induction bs generalizing acc with
  | nil => simpa using hacc
  | cons b bs ih =>
    simp only [List.foldl_cons]
    exact ih _ (by
      have := h b (List.mem_cons_self b bs)
      simp only [max_le_iff]; exact ⟨hacc, this⟩)
      (fun x hx => h x (List.mem_cons_of_mem _ hx))

/-- If every bid of a nonempty iteration is at most `c`, so is the
iteration maximum. -/
theorem maxAmt_le (bids : List Bid) (c : Int) (hne : bids ≠ [])
    (h : ∀ b ∈ bids, b.amount ≤ c) : maxAmt bids ≤ c := by
  cases bids with
  | nil => exact absurd rfl hne
  | cons b bs =>
    exact maxAmt_foldl_le bs b.amount c (h b (List.mem_cons_self b bs))
      (fun x hx => h x (List.mem_cons_of_mem _ hx))

/-- Folding `max` either returns the accumulator or hits a member. -/
theorem foldl_max_mem (bs : List Bid) : ∀ acc : Int,
    (∃ x ∈ bs, x.amount = bs.foldl (fun m x => max m x.amount) acc) ∨
      bs.foldl (fun m x => max m x.amount) acc = acc := by
  induction bs with
  | nil => intro _; right; rfl
  | cons x xs ih =>
    intro acc
    rcases ih (max acc x.amount) with ⟨y, hy, he⟩ | he
    · exact Or.inl ⟨y, List.mem_cons_of_mem _ hy, he⟩
    · rcases max_choice acc x.amount with hm | hm
      · right; simp only [List.foldl_cons]; rw [he, hm]
      · exact Or.inl ⟨x, List.mem_cons_self x xs, by simp only [List.foldl_cons]; rw [he, hm]⟩

/-- The iteration maximum is attained by some bid. -/
theorem maxAmt_mem (bids : List Bid) (hne : bids ≠ []) :
    ∃ b ∈ bids, b.amount = maxAmt bids := by
  cases bids with
  | nil => exact absurd rfl hne
  | cons b bs =>
    rcases foldl_max_mem bs b.amount with ⟨x, hx, he⟩ | he
    · exact ⟨x, List.mem_cons_of_mem _ hx, he⟩
    · exact ⟨b, List.mem_cons_self b bs, by simp [maxAmt, he]⟩

/-- `winTeams` preserves the list of team names. -/
theorem winTeams_names (teams : List Team) (w : String) (item : Item) (p : Int) :
    (winTeams teams w item p).map (·.name) = teams.map (·.name) := by
  induction teams with
  | nil => rfl
  | cons t ts ih =>
    by_cases h : t.name = w
    · simp [winTeams, h, winItemUpdate]
    · simp [winTeams, h, ih]

/-- `winTeams` preserves the length of the team list. -/
theorem winTeams_length (teams : List Team) (w : String) (item : Item) (p : Int) :
    (winTeams teams w item p).length = teams.length := by
  have := winTeams_names teams w item p
  have h1 := congrArg List.length this
  simpa using h1

/-- A position holding a team whose name is not the winner's is left
untouched by `winTeams`. -/
theorem winTeams_get?_ne (teams : List Team) (w : String) (item : Item) (p : Int)
    (i : Nat) (hne : ∀ t, teams.get? i = some t → t.name ≠ w) :
    (winTeams teams w item p).get? i = teams.get? i := by
  induction teams generalizing i with
  | nil => rfl
  | cons t ts ih =>
    by_cases h : t.name = w
    · cases i with
      | zero => exact absurd h (hne t rfl)
      | succ j => simp [winTeams, h]
    · cases i with
      | zero => simp [winTeams, h]
      | succ j =>
        simp only [winTeams, if_neg h, List.get?_cons_succ]
        exact ih j (fun u hu => hne u (by simpa using hu))

/-- Looking up the winner after `winTeams` sees the debited budget,
provided a team with that name exists. -/
theorem budgetOf_winTeams_self (teams : List Team) (w : String) (item : Item) (p : Int)
    (hmem : ∃ t ∈ teams, t.name = w) :
    budgetOf (winTeams teams w item p) w = budgetOf teams w - p := by
  induction teams with
  | nil => simp at hmem
  | cons t ts ih =>
    by_cases h : t.name = w
    · simp [winTeams, h, budgetOf, winItemUpdate, List.find?_cons, h]
    · have hbe : (t.name == w) = false := by simp [h]
      rcases hmem with ⟨u, hu, hw⟩
      rcases List.mem_cons.mp hu with rfl | hu2
      · exact absurd hw h
      · simp only [winTeams, if_neg h, budgetOf, List.find?_cons, hbe]
        exact ih ⟨u, hu2, hw⟩

/-- Looking up any other name after `winTeams` is unchanged. -/
theorem budgetOf_winTeams_ne (teams : List Team) (w : String) (item : Item) (p : Int)
    (n : String) (hne : n ≠ w) :
    budgetOf (winTeams teams w item p) n = budgetOf teams n := by
  induction teams with
  | nil => rfl
  | cons t ts ih =>
    by_cases h : t.name = w
    · have hbe : (t.name == n) = false := by
        simp only [beq_eq_false_iff_ne, ne_eq]
        intro hc; rw [hc] at h; exact hne h
      simp only [winTeams, if_pos h, budgetOf, winItemUpdate, List.find?_cons, hbe]
    · by_cases h2 : t.name = n
      · have hbe : (t.name == n) = true := by simp [h2]
        simp only [winTeams, if_neg h, budgetOf, List.find?_cons, hbe]
      · have hbe : (t.name == n) = false := by simp [h2]
        simp only [winTeams, if_neg h, budgetOf, List.find?_cons, hbe]
        exact ih

/-- With pairwise distinct names, the budget looked up by a member's
name is that member's budget. -/
theorem budgetOf_eq_of_nodup (teams : List Team) (t : Team)
    (hnd : (teams.map (·.name)).Nodup) (ht : t ∈ teams) :
    budgetOf teams t.name = t.budget := by
  induction teams with
  | nil => simp at ht
  | cons u ts ih =>
    rcases List.mem_cons.mp ht with rfl | ht2
    · simp [budgetOf, List.find?_cons]
    · have hne : u.name ≠ t.name := by
        intro hc
        have : t.name ∈ ts.map (·.name) := List.mem_map_of_mem _ ht2
        rw [← hc] at this
        exact (List.nodup_cons.mp hnd).1 this
      have hbe : (u.name == t.name) = false := by simp [hne]
      simp only [budgetOf, List.find?_cons, hbe]
      exact ih (List.nodup_cons.mp hnd).2 ht2

/-- Python truthiness of the optional leader name, unfolded. -/
theorem pyTruthyStr_eq_true (o : Option String) :
    pyTruthyStr o = true ↔ ∃ s, o = some s ∧ s ≠ "" := by
  cases o with
  | none => simp [pyTruthyStr]
  | some s => simp [pyTruthyStr]

/-- Every bid of an iteration belongs to a team of the shuffled order,
carries that team's name and the current iteration number, and is
clamped to that team's budget. -/
theorem iterationBids_mem (oracle : GameState → Option String) (teams : List Team)
    (remaining : List Item) (history : List AuctionResult) (item : Item)
    (iteration round : Nat) (hb : Int) (hber : Option String) (histBids : List Bid)
    (order : List Team) (b : Bid)
    (hmem : b ∈ iterationBids oracle teams remaining history item iteration round
      hb hber histBids order) :
    ∃ t ∈ order, b.team_name = t.name ∧ b.amount ≤ t.budget ∧ b.iteration = iteration ∧
      (0 ≤ t.budget → 0 ≤ b.amount) := by
  rcases List.mem_map.mp hmem with ⟨t, ht, rfl⟩
  refine ⟨t, ht, rfl, ?_, rfl, ?_⟩
  · exact clampBid_le _ _
  · intro hB
    exact clampBid_nonneg _ _ (parse_bid_response_nonneg _) hB

/-- An iteration over a nonempty order produces at least one bid. -/
theorem iterationBids_ne_nil (oracle : GameState → Option String) (teams : List Team)
    (remaining : List Item) (history : List AuctionResult) (item : Item)
    (iteration round : Nat) (hb : Int) (hber : Option String) (histBids : List Bid)
    (order : List Team) (hne : order ≠ []) :
    iterationBids oracle teams remaining history item iteration round hb hber histBids
      order ≠ [] := by
  unfold iterationBids
  simpa using hne

/-- Unfolding of the iteration loop at fuel 0 (iteration cap reached). -/
theorem auctionLoop_zero (sh : Nat → Nat → List Team → List Team)
    (oracle : GameState → Option String) (teams : List Team) (remaining : List Item)
    (history : List AuctionResult) (item : Item) (round maxIter it : Nat)
    (allBids winHist : List Bid) (hb : Int) (hber : Option String)
    (log : List GameState) :
    auctionLoop sh oracle teams remaining history item round maxIter
        0 it allBids winHist hb hber log =
      if hb > 0 ∧ pyTruthyStr hber then
        ⟨⟨item, hber, hb, allBids, maxIter⟩, winTeams teams (hber.getD "") item hb, log⟩
      else
        ⟨⟨item, none, 0, allBids, maxIter⟩, teams, log⟩ := rfl

/-- Unfolding of the iteration loop at positive fuel (one more iteration
of simultaneous bidding). -/
theorem auctionLoop_succ (sh : Nat → Nat → List Team → List Team)
    (oracle : GameState → Option String) (teams : List Team) (remaining : List Item)
    (history : List AuctionResult) (item : Item) (round maxIter fuel it : Nat)
    (allBids winHist : List Bid) (hb : Int) (hber : Option String)
    (log : List GameState) :
    auctionLoop sh oracle teams remaining history item round maxIter
        (fuel + 1) it allBids winHist hb hber log =
      (if (iterationBids oracle teams remaining history item it round hb hber winHist
            (sh round it teams)).isEmpty then
        auctionLoop sh oracle teams remaining history item round maxIter
          fuel (it + 1)
          (allBids ++ iterationBids oracle teams remaining history item it round hb hber
            winHist (sh round it teams))
          winHist hb hber
          (log ++ iterationStates teams remaining history item it round hb hber winHist
            (sh round it teams))
      else if maxAmt (iterationBids oracle teams remaining history item it round hb hber
            winHist (sh round it teams)) > hb then
        auctionLoop sh oracle teams remaining history item round maxIter
          fuel (it + 1)
          (allBids ++ iterationBids oracle teams remaining history item it round hb hber
            winHist (sh round it teams))
          (winHist ++ [⟨firstLeader
              (iterationBids oracle teams remaining history item it round hb hber winHist
                (sh round it teams))
              (maxAmt (iterationBids oracle teams remaining history item it round hb hber
                winHist (sh round it teams))),
            maxAmt (iterationBids oracle teams remaining history item it round hb hber
              winHist (sh round it teams)), it⟩])
          (maxAmt (iterationBids oracle teams remaining history item it round hb hber
            winHist (sh round it teams)))
          (some (firstLeader
            (iterationBids oracle teams remaining history item it round hb hber winHist
              (sh round it teams))
            (maxAmt (iterationBids oracle teams remaining history item it round hb hber
              winHist (sh round it teams)))))
          (log ++ iterationStates teams remaining history item it round hb hber winHist
            (sh round it teams))
      else if hb > 0 ∧ pyTruthyStr hber then
        ⟨⟨item, hber, hb,
            allBids ++ iterationBids oracle teams remaining history item it round hb hber
              winHist (sh round it teams), it⟩,
          winTeams teams (hber.getD "") item hb,
          log ++ iterationStates teams remaining history item it round hb hber winHist
            (sh round it teams)⟩
      else
        ⟨⟨item, none, 0,
            allBids ++ iterationBids oracle teams remaining history item it round hb hber
              winHist (sh round it teams), it⟩,
          teams,
          log ++ iterationStates teams remaining history item it round hb hber winHist
            (sh round it teams)⟩) := rfl

/-- The leader is only ever set to the name of a team that placed a bid
attaining the maximum: if some bid attains `m`, `firstLeader` names the
bid found first. -/
theorem firstLeader_spec (bids : List Bid) (m : Int)
    (hex : ∃ b ∈ bids, b.amount = m) :
    ∃ b ∈ bids, b.amount = m ∧ firstLeader bids m = b.team_name := by
  have hsome : (bids.find? (fun b => b.amount == m)).isSome := by
    rw [List.find?_isSome]
    rcases hex with ⟨b, hb, he⟩
    exact ⟨b, hb, by simp [he]⟩
  rcases Option.isSome_iff_exists.mp hsome with ⟨b, hfind⟩
  refine ⟨b, List.mem_of_find?_eq_some hfind, ?_, ?_⟩
  · have := List.find?_some hfind
    simpa using this
  · simp [firstLeader, hfind]

/-- Core invariant of the iteration loop: the running leader always has
a team that bid the leader amount within its then-current budget; hence
on resolution the winner is charged a feasible amount, and an unsold
auction leaves the team list untouched. -/
theorem auctionLoop_spec (sh : Nat → Nat → List Team → List Team)
    (oracle : GameState → Option String) (teams : List Team) (remaining : List Item)
    (history : List AuctionResult) (item : Item) (round maxIter : Nat)
    (hsh : ∀ r i ts, (sh r i ts).Perm ts) :
    ∀ (fuel it : Nat) (allBids winHist : List Bid) (hb : Int) (hber : Option String)
      (log : List GameState),
      (∀ L, hber = some L → ∃ t ∈ teams, t.name = L ∧ hb ≤ t.budget) →
      ((auctionLoop sh oracle teams remaining history item round maxIter
          fuel it allBids winHist hb hber log).result.winning_team = none →
        (auctionLoop sh oracle teams remaining history item round maxIter
          fuel it allBids winHist hb hber log).teams = teams ∧
        (auctionLoop sh oracle teams remaining history item round maxIter
          fuel it allBids winHist hb hber log).result.winning_bid = 0) ∧
      (∀ w, (auctionLoop sh oracle teams remaining history item round maxIter
          fuel it allBids winHist hb hber log).result.winning_team = some w →
        (auctionLoop sh oracle teams remaining history item round maxIter
          fuel it allBids winHist hb hber log).teams =
          winTeams teams w item
            (auctionLoop sh oracle teams remaining history item round maxIter
              fuel it allBids winHist hb hber log).result.winning_bid ∧
        0 < (auctionLoop sh oracle teams remaining history item round maxIter
          fuel it allBids winHist hb hber log).result.winning_bid ∧
        ∃ t ∈ teams, t.name = w ∧
          (auctionLoop sh oracle teams remaining history item round maxIter
            fuel it allBids winHist hb hber log).result.winning_bid ≤ t.budget) := by
  intro fuel
  induction fuel with
  | zero =>
    intro it allBids winHist hb hber log hinv
    rw [auctionLoop_zero]
    by_cases hc : hb > 0 ∧ pyTruthyStr hber
    · rcases (pyTruthyStr_eq_true hber).mp hc.2 with ⟨L, rfl, hLne⟩
      refine ⟨?_, ?_⟩
      · intro hnone; simp [if_pos hc] at hnone
      · intro w hw
        simp only [if_pos hc] at hw ⊢
        have : L = w := by simpa using hw
        subst this
        exact ⟨rfl, hc.1, hinv L rfl⟩
    · refine ⟨?_, ?_⟩
      · intro _; simp [if_neg hc]
      · intro w hw; simp [if_neg hc] at hw
  | succ fuel ih =>
    intro it allBids winHist hb hber log hinv
    rw [auctionLoop_succ]
    by_cases hbe : (iterationBids oracle teams remaining history item it round hb hber
        winHist (sh round it teams)).isEmpty
    · simp only [if_pos hbe]
      exact ih (it + 1) _ _ hb hber _ hinv
    · simp only [if_neg hbe]
      by_cases hm : maxAmt (iterationBids oracle teams remaining history item it round
          hb hber winHist (sh round it teams)) > hb
      · simp only [if_pos hm]
        apply ih
        intro L hL
        have hne : iterationBids oracle teams remaining history item it round hb hber
            winHist (sh round it teams) ≠ [] := by
          intro hc; rw [hc] at hbe; exact hbe rfl
        rcases firstLeader_spec _ _ (maxAmt_mem _ hne) with ⟨b, hbmem, hbamt, hbname⟩
        rcases iterationBids_mem oracle teams remaining history item it round hb hber
          winHist (sh round it teams) b hbmem with ⟨t, htord, hname, hle, _, _⟩
        refine ⟨t, (hsh round it teams).mem_iff.mp htord, ?_, ?_⟩
        · rw [← hname, ← hbname]
          exact Option.some_injective _ hL.symm ▸ rfl
        · rw [← hbamt]; exact hle
      · simp only [if_neg hm]
        by_cases hc : hb > 0 ∧ pyTruthyStr hber
        · rcases (pyTruthyStr_eq_true hber).mp hc.2 with ⟨L, rfl, hLne⟩
          refine ⟨?_, ?_⟩
          · intro hnone; simp [if_pos hc] at hnone
          · intro w hw
            simp only [if_pos hc] at hw ⊢
            have : L = w := by simpa using hw
            subst this
            exact ⟨rfl, hc.1, hinv L rfl⟩
        · refine ⟨?_, ?_⟩
          · intro _; simp [if_neg hc]
          · intro w hw; simp [if_neg hc] at hw

/-- Each member of `winTeams teams w item p` is either an untouched
member of `teams`, or the debited first team named `w` (whose budget is
exactly what `budgetOf` reports for `w`). -/
theorem winTeams_mem (teams : List Team) (w : String) (item : Item) (p : Int)
    (u : Team) (hu : u ∈ winTeams teams w item p) :
    u ∈ teams ∨ ∃ t ∈ teams, t.name = w ∧ budgetOf teams w = t.budget ∧
      u = winItemUpdate item p t := by
  induction teams with
  | nil => simp [winTeams] at hu
  | cons t ts ih =>
    by_cases h : t.name = w
    · rw [winTeams, if_pos h] at hu
      rcases List.mem_cons.mp hu with rfl | hu2
      · right
        refine ⟨t, List.mem_cons_self t ts, h, ?_, rfl⟩
        simp [budgetOf, List.find?_cons, h]
      · exact Or.inl (List.mem_cons_of_mem _ hu2)
    · rw [winTeams, if_neg h] at hu
      rcases List.mem_cons.mp hu with rfl | hu2
      · exact Or.inl (List.mem_cons_self _ _)
      · rcases ih hu2 with hin | ⟨t2, ht2, hw2, hb2, he2⟩
        · exact Or.inl (List.mem_cons_of_mem _ hin)
        · right
          refine ⟨t2, List.mem_cons_of_mem _ ht2, hw2, ?_, he2⟩
          have hbe : (t.name == w) = false := by simp [h]
          simpa [budgetOf, List.find?_cons, hbe] using hb2

/-- One run of `_run_single_auction` performs a `budgetStep`: the
winner (if any) is debited a feasible positive amount, everyone else is
untouched, and an unsold auction changes nothing. -/
theorem runSingleAuction_step (sh : Nat → Nat → List Team → List Team)
    (oracle : GameState → Option String) (teams : List Team) (remaining : List Item)
    (history : List AuctionResult) (item : Item) (round maxIter : Nat)
    (hsh : ∀ r i ts, (sh r i ts).Perm ts)
    (hnd : (teams.map (·.name)).Nodup) :
    budgetStep teams
      (runSingleAuction sh oracle teams remaining history item round maxIter).teams
      (runSingleAuction sh oracle teams remaining history item round maxIter).result := by
  have hspec := auctionLoop_spec sh oracle teams remaining history item round maxIter hsh
    maxIter 1 [] [] 0 none [] (by intro L hL; cases hL)
  rw [show auctionLoop sh oracle teams remaining history item round maxIter
      maxIter 1 [] [] 0 none [] =
    runSingleAuction sh oracle teams remaining history item round maxIter from rfl] at hspec
  rcases hspec with ⟨hnone, hsome⟩
  cases hwt : (runSingleAuction sh oracle teams remaining history item round
      maxIter).result.winning_team with
  | none =>
    rcases hnone hwt with ⟨hteams, hbid⟩
    refine ⟨by rw [hteams], ?_, ?_, fun _ => ⟨hteams, hbid⟩, ?_⟩
    · intro n; rw [hteams, hwt, hbid]; simp
    · intro w hw; rw [hwt] at hw; cases hw
    · intro h; rw [hteams]; exact h
  | some w =>
    rcases hsome w hwt with ⟨hteams, hpos, t, ht, hname, hle⟩
    have hbud : budgetOf teams w = t.budget := by
      rw [← hname]; exact budgetOf_eq_of_nodup teams t hnd ht
    have hwin : (runSingleAuction sh oracle teams remaining history item round
        maxIter).result.winning_bid ≤ budgetOf teams w := by
      rw [hbud]; exact hle
    refine ⟨by rw [hteams]; exact winTeams_names _ _ _ _, ?_, ?_, ?_, ?_⟩
    · intro n
      rw [hteams, hwt]
      by_cases hn : n = w
      · subst hn
        rw [budgetOf_winTeams_self teams n item _ ⟨t, ht, hname⟩]
        simp
      · rw [budgetOf_winTeams_ne teams w item _ n hn]
        have : (some w = some n) = False := by
          simp [Option.some_inj]; intro hc; exact hn hc.symm
        simp [this]
    · intro w2 hw2
      rw [hwt] at hw2
      have : w = w2 := by simpa using hw2
      subst this
      exact ⟨hpos, hwin⟩
    · intro hcontra; rw [hwt] at hcontra; cases hcontra
    · intro hprev u hu
      rw [hteams] at hu
      rcases winTeams_mem teams w item _ u hu with hin | ⟨t2, ht2, hw2, hb2, rfl⟩
      · exact hprev u hin
      · simp only [winItemUpdate]
        have : (runSingleAuction sh oracle teams remaining history item round
            maxIter).result.winning_bid ≤ t2.budget := by
          rw [← hb2]; exact hwin
        omega

/-- `AuctionEngine.run` produces, alongside the accumulated history and
trace, a `budgetChain` from the starting team list, and its final team
list is the last traced state. -/
theorem runGameAux_chain (sh : Nat → Nat → List Team → List Team)
    (oracle : GameState → Option String) (maxIter : Nat)
    (hsh : ∀ r i ts, (sh r i ts).Perm ts) :
    ∀ (todo : List Item) (round : Nat) (teams : List Team) (remaining : List Item)
      (history : List AuctionResult) (trace : List (List Team)),
      (teams.map (·.name)).Nodup →
      ∃ sts rs,
        runGameAux sh oracle maxIter todo round teams remaining history trace =
          ⟨sts.getLastD teams, history ++ rs, trace ++ sts⟩ ∧
        budgetChain teams sts rs ∧
        rs.length = todo.length := by
  intro todo
  induction todo with
  | nil =>
    intro round teams remaining history trace _
    exact ⟨[], [], by simp [runGameAux], trivial, rfl⟩
  | cons item todo ih =>
    intro round teams remaining history trace hnd
    have hstep := runSingleAuction_step sh oracle teams remaining history item round
      maxIter hsh hnd
    have hnd2 : ((runSingleAuction sh oracle teams remaining history item round
        maxIter).teams.map (·.name)).Nodup := by
      rw [hstep.1]; exact hnd
    rcases ih (round + 1)
        (runSingleAuction sh oracle teams remaining history item round maxIter).teams
        (removeFirstItem remaining item)
        (history ++ [(runSingleAuction sh oracle teams remaining history item round
          maxIter).result])
        (trace ++ [(runSingleAuction sh oracle teams remaining history item round
          maxIter).teams]) hnd2 with ⟨sts, rs, heq, hchain, hlen⟩
    refine ⟨(runSingleAuction sh oracle teams remaining history item round
        maxIter).teams :: sts,
      (runSingleAuction sh oracle teams remaining history item round maxIter).result :: rs,
      ?_, ⟨hstep, hchain⟩, by simp [hlen]⟩
    show runGameAux sh oracle maxIter todo (round + 1)
        (runSingleAuction sh oracle teams remaining history item round maxIter).teams
        (removeFirstItem remaining item)
        (history ++ [(runSingleAuction sh oracle teams remaining history item round
          maxIter).result])
        (trace ++ [(runSingleAuction sh oracle teams remaining history item round
          maxIter).teams]) = _
    rw [heq, ← List.getLastD_cons teams
      (runSingleAuction sh oracle teams remaining history item round maxIter).teams sts]
    simp only [List.append_assoc, List.singleton_append]


/-- A nonempty chain forces equally long state and result lists. -/
theorem budgetChain_lengths (teams : List Team) (sts : List (List Team))
    (rs : List AuctionResult) (h : budgetChain teams sts rs) :
    sts.length = rs.length := by
  induction sts generalizing teams rs with
  | nil =>
    cases rs with
    | nil => rfl
    | cons r rs => exact h.elim
  | cons st sts ih =>
    cases rs with
    | nil => exact h.elim
    | cons r rs => simp only [List.length_cons, ih st rs h.2]

/-- Indexing into a chain yields the `budgetStep` of that auction. -/
theorem budgetChain_get (teams : List Team) (sts : List (List Team))
    (rs : List AuctionResult) (h : budgetChain teams sts rs) :
    ∀ (k : Nat) (prev next : List Team) (res : AuctionResult),
      (teams :: sts).get? k = some prev →
      sts.get? k = some next →
      rs.get? k = some res →
      budgetStep prev next res := by
  induction sts generalizing teams rs with
  | nil => intro k prev next res _ h2 _; simp at h2
  | cons st sts ih =>
    cases rs with
    | nil => exact h.elim
    | cons r rs =>
      intro k prev next res h1 h2 h3
      cases k with
      | zero =>
        have e1 : teams = prev := by simpa using h1
        have e2 : st = next := by simpa using h2
        have e3 : r = res := by simpa using h3
        rw [← e1, ← e2, ← e3]
        exact h.1
      | succ j =>
        exact ih st rs h.2 j prev next res (by simpa using h1) (by simpa using h2)
          (by simpa using h3)

/-- Nonnegative budgets are preserved along a chain. -/
theorem budgetChain_nonneg (teams : List Team) (sts : List (List Team))
    (rs : List AuctionResult) (h : budgetChain teams sts rs)
    (h0 : ∀ t ∈ teams, 0 ≤ t.budget) :
    ∀ ts ∈ sts, ∀ t ∈ ts, 0 ≤ t.budget := by
  induction sts generalizing teams rs with
  | nil => intro ts hts; simp at hts
  | cons st sts ih =>
    cases rs with
    | nil => exact h.elim
    | cons r rs =>
      intro ts hts
      have hst : ∀ t ∈ st, 0 ≤ t.budget := h.1.2.2.2.2 h0
      rcases List.mem_cons.mp hts with rfl | hmem
      · exact hst
      · exact ih st rs h.2 hst ts hmem

/-- Telescoping a chain: the final budget under a name is the initial
budget under that name minus all amounts charged to that name. -/
theorem budgetChain_total (teams : List Team) (sts : List (List Team))
    (rs : List AuctionResult) (h : budgetChain teams sts rs) (n : String) :
    budgetOf (sts.getLastD teams) n =
      budgetOf teams n -
        ((rs.filter (fun r => r.winning_team == some n)).map (·.winning_bid)).sum := by
  induction sts generalizing teams rs with
  | nil =>
    cases rs with
    | nil => simp
    | cons r rs => exact h.elim
  | cons st sts ih =>
    cases rs with
    | nil => exact h.elim
    | cons r rs =>
      rw [List.getLastD_cons, ih st rs h.2, h.1.2.1 n]
      by_cases hw : r.winning_team = some n
      · have hbe : (r.winning_team == some n) = true := by simp [hw]
        simp only [List.filter_cons, hbe, if_pos hw, if_true, List.map_cons, List.sum_cons]
        omega
      · have hbe : (r.winning_team == some n) = false := by simp [hw]
        simp only [List.filter_cons, hbe, if_neg hw, Bool.false_eq_true, if_false]
        omega

/-- The result of running the whole game, in terms of the chain. -/
theorem runGame_eq_chain (sh : Nat → Nat → List Team → List Team)
    (oracle : GameState → Option String) (maxIter : Nat)
    (teams : List Team) (items : List Item)
    (hsh : ∀ r i ts, (sh r i ts).Perm ts)
    (hnd : (teams.map (·.name)).Nodup) :
    ∃ sts rs,
      runGame sh oracle maxIter teams items = ⟨sts.getLastD teams, rs, sts⟩ ∧
      budgetChain teams sts rs ∧ rs.length = items.length := by
  rcases runGameAux_chain sh oracle maxIter hsh items 1 teams items [] [] hnd with
    ⟨sts, rs, heq, hchain, hlen⟩
  refine ⟨sts, rs, ?_, hchain, hlen⟩
  rw [runGame, heq]
  simp

/-! ## Theorems about the bid parser (claim C5) -/

/-- C5 (counterexample): the claim says the parser returns the first
integer literal occurring anywhere in the response; on the concrete
response "I bid 42" the code returns 0 while the claimed behaviour
returns 42, so the claim as stated is false. -/
theorem c5_counterexample :
    parse_bid_response (some "I bid 42") = 0 ∧
      parse_bid_claimed (some "I bid 42") = 42 ∧
      parse_bid_response (some "I bid 42") ≠ parse_bid_claimed (some "I bid 42") := by
  refine ⟨by decide, by decide, by decide⟩

/-- C5 (amended): the parser recognises an integer literal only at the
very start of the whitespace-stripped response; a missing response, a
response whose stripped text does not begin with a digit-run literal,
and a negative literal all yield 0. -/
theorem c5_parse_bid_amended_correct (response : Option String) :
    parse_bid_response response = parse_bid_amended response := by
  cases response with
  | none => rfl
  | some r =>
    show (match leadingIntLit (stripChars r.data) with
          | none => 0
          | some bid => if bid < 0 then 0 else bid) =
        parseSpecList (stripChars r.data)
    generalize stripChars r.data = cs
    cases cs with
    | nil => rfl
    | cons c rest =>
      by_cases hneg : c = '-'
      · subst hneg
        have hdig : ('-').isDigit = false := by decide
        simp only [leadingIntLit, if_pos rfl, parseSpecList, hdig,
          Bool.false_eq_true, if_false]
        cases hds : leadingDigits rest with
        | nil => rfl
        | cons d ds =>
          rcases Nat.eq_zero_or_pos (digitsToNat (d :: ds)) with h0 | hpos
          · simp [h0]
          · have hlt : (-(digitsToNat (d :: ds) : Int)) < 0 := by
              have : (0 : Int) < (digitsToNat (d :: ds) : Int) := by exact_mod_cast hpos
              omega
            simp [hlt]
      · by_cases hdig : c.isDigit
        · have hld : leadingDigits (c :: rest) = c :: rest.takeWhile (·.isDigit) := by
            simp [leadingDigits, List.takeWhile_cons, hdig]
          have hnn : ¬ ((digitsToNat (c :: rest.takeWhile (·.isDigit)) : Int) < 0) :=
            not_lt.mpr (Int.natCast_nonneg _)
          simp only [leadingIntLit, if_neg hneg, hld, parseSpecList, hdig, if_true]
          simp [hnn]
        · have hld : leadingDigits (c :: rest) = [] := by
            simp [leadingDigits, List.takeWhile_cons, hdig]
          simp [leadingIntLit, if_neg hneg, hld, parseSpecList, hdig]

/-! ## Theorems about scenario loading (claim C9) -/

/-- C9 (code bug): a well-formed lowercase entry with quality 0 fails to
load, because `item_data.get("quality") or item_data.get("Quality")`
treats the integer 0 as falsy and falls through to the absent
capitalised key, producing `None` and a validation error.  Entries with
nonzero quality load identically under both casings, and even the
capitalised spelling of the quality-0 entry loads fine, confirming the
falsy-fallback as the one broken case. -/
theorem c9_quality_zero_lowercase_fails :
    loadItem junkEntryLower = Except.error "validation error" ∧
      loadItem junkEntryCaps = Except.ok ⟨"junk", 0, false⟩ ∧
      loadItem gemEntryLower = Except.ok ⟨"gem", 50, true⟩ ∧
      loadItem gemEntryCaps = Except.ok ⟨"gem", 50, true⟩ ∧
      loadItem gemEntryLower = loadItem gemEntryCaps := by
  refine ⟨rfl, rfl, rfl, rfl, rfl⟩


/-! ## Claim C6: sold-or-unsold dichotomy and the unsold frame -/

/-- C6: every auction resolves to either no winner or exactly one
winning team; an unsold auction returns the team list unchanged (all
budgets and ledgers identical) with winning bid 0, and a sold auction
changes no entry other than the winner's. -/
theorem c6_sold_or_unsold (sh : Nat → Nat → List Team → List Team)
    (oracle : GameState → Option String) (teams : List Team) (remaining : List Item)
    (history : List AuctionResult) (item : Item) (round maxIter : Nat)
    (hsh : ∀ r i ts, (sh r i ts).Perm ts) :
    ((runSingleAuction sh oracle teams remaining history item round
        maxIter).result.winning_team = none →
      (runSingleAuction sh oracle teams remaining history item round maxIter).teams = teams ∧
      (runSingleAuction sh oracle teams remaining history item round
        maxIter).result.winning_bid = 0) ∧
    (∀ w, (runSingleAuction sh oracle teams remaining history item round
        maxIter).result.winning_team = some w →
      (∃ t ∈ teams, t.name = w) ∧
      (runSingleAuction sh oracle teams remaining history item round maxIter).teams.length =
        teams.length ∧
      (∀ i : Nat, (∀ t, teams.get? i = some t → t.name ≠ w) →
        (runSingleAuction sh oracle teams remaining history item round
          maxIter).teams.get? i = teams.get? i)) := by
  have hspec := auctionLoop_spec sh oracle teams remaining history item round maxIter hsh
    maxIter 1 [] [] 0 none [] (fun L hL => by cases hL)
  refine ⟨hspec.1, fun w hw => ?_⟩
  rcases hspec.2 w hw with ⟨hteams, _, t, ht, hname, _⟩
  refine ⟨⟨t, ht, hname⟩, ?_, ?_⟩
  · rw [show (runSingleAuction sh oracle teams remaining history item round maxIter).teams =
      winTeams teams w item (runSingleAuction sh oracle teams remaining history item round
        maxIter).result.winning_bid from hteams]
    exact winTeams_length _ _ _ _
  · intro i hni
    rw [show (runSingleAuction sh oracle teams remaining history item round maxIter).teams =
      winTeams teams w item (runSingleAuction sh oracle teams remaining history item round
        maxIter).result.winning_bid from hteams]
    exact winTeams_get?_ne teams w item _ i hni

/-- Witness for C6 on a concrete sold auction: X wins, Y's entry is
untouched. -/
theorem c6_witness :
    (runSingleAuction shId oracleHundredFifty teamsBig [itemA] [] itemA 1
      45).result.winning_team = some "X" ∧
    ((∃ t ∈ teamsBig, t.name = "X") ∧
      (runSingleAuction shId oracleHundredFifty teamsBig [itemA] [] itemA 1
        45).teams.length = teamsBig.length ∧
      (∀ i : Nat, (∀ t, teamsBig.get? i = some t → t.name ≠ "X") →
        (runSingleAuction shId oracleHundredFifty teamsBig [itemA] [] itemA 1
          45).teams.get? i = teamsBig.get? i)) :=
  ⟨rfl,
    (c6_sold_or_unsold shId oracleHundredFifty teamsBig [itemA] [] itemA 1 45
      (fun _ _ ts => List.Perm.refl ts)).2 "X" rfl⟩

/-! ## Claim C3: winning bids are budget-feasible, budgets stay
nonnegative and non-increasing -/

/-- C3: in a full game run from nonnegative budgets with distinct team
names and a permuting shuffle, (a) every resolved auction's winning bid
is positive and at most the winner's budget in the state immediately
before that auction (budgets do not change during an item's auction, so
that is also the budget immediately before finalization), (b) every
traced budget is nonnegative, and (c) each team's budget is
non-increasing from each traced state to the next. -/
theorem c3_budget_safety (sh : Nat → Nat → List Team → List Team)
    (oracle : GameState → Option String) (maxIter : Nat)
    (teams : List Team) (items : List Item)
    (hsh : ∀ r i ts, (sh r i ts).Perm ts)
    (hnd : (teams.map (·.name)).Nodup)
    (hnn : ∀ t ∈ teams, 0 ≤ t.budget) :
    (∀ (k : Nat) (res : AuctionResult) (prev : List Team),
        (runGame sh oracle maxIter teams items).results.get? k = some res →
        (teams :: (runGame sh oracle maxIter teams items).trace).get? k = some prev →
        ∀ w, res.winning_team = some w →
          0 < res.winning_bid ∧ res.winning_bid ≤ budgetOf prev w) ∧
    (∀ ts ∈ teams :: (runGame sh oracle maxIter teams items).trace,
        ∀ t ∈ ts, 0 ≤ t.budget) ∧
    (∀ (k : Nat) (prev next : List Team),
        (teams :: (runGame sh oracle maxIter teams items).trace).get? k = some prev →
        (runGame sh oracle maxIter teams items).trace.get? k = some next →
        ∀ n, budgetOf next n ≤ budgetOf prev n) := by
  rcases runGame_eq_chain sh oracle maxIter teams items hsh hnd with
    ⟨sts, rs, heq, hchain, _⟩
  rw [heq]
  have hlen := budgetChain_lengths teams sts rs hchain
  refine ⟨?_, ?_, ?_⟩
  · intro k res prev h1 h2 w hw
    have hk : k < rs.length := (List.get?_eq_some.mp h1).1
    have hk2 : k < sts.length := by omega
    have h3 : sts.get? k = some (sts.get ⟨k, hk2⟩) := List.get?_eq_get hk2
    exact (budgetChain_get teams sts rs hchain k prev _ res h2 h3 h1).2.2.1 w hw
  · intro ts hts t ht
    rcases List.mem_cons.mp hts with rfl | hmem
    · exact hnn t ht
    · exact budgetChain_nonneg teams sts rs hchain hnn ts hmem t ht
  · intro k prev next h1 h2 n
    have hk : k < sts.length := (List.get?_eq_some.mp h2).1
    have hk2 : k < rs.length := by omega
    have h3 : rs.get? k = some (rs.get ⟨k, hk2⟩) := List.get?_eq_get hk2
    have hstep := budgetChain_get teams sts rs hchain k prev next _ h1 h2 h3
    rw [hstep.2.1 n]
    by_cases hw : (rs.get ⟨k, hk2⟩).winning_team = some n
    · have := (hstep.2.2.1 n hw).1
      simp only [if_pos hw]
      omega
    · simp only [if_neg hw]
      omega

/-- Witness for C3 on a concrete two-item game. -/
theorem c3_witness :
    ((teamsBig.map (·.name)).Nodup ∧ (∀ t ∈ teamsBig, 0 ≤ t.budget)) ∧
    ((∀ (k : Nat) (res : AuctionResult) (prev : List Team),
        (runGame shId oracleHundredFifty 45 teamsBig [itemA]).results.get? k = some res →
        (teamsBig :: (runGame shId oracleHundredFifty 45 teamsBig [itemA]).trace).get? k =
          some prev →
        ∀ w, res.winning_team = some w →
          0 < res.winning_bid ∧ res.winning_bid ≤ budgetOf prev w) ∧
     (∀ ts ∈ teamsBig :: (runGame shId oracleHundredFifty 45 teamsBig [itemA]).trace,
        ∀ t ∈ ts, 0 ≤ t.budget) ∧
     (∀ (k : Nat) (prev next : List Team),
        (teamsBig :: (runGame shId oracleHundredFifty 45 teamsBig [itemA]).trace).get? k =
          some prev →
        (runGame shId oracleHundredFifty 45 teamsBig [itemA]).trace.get? k = some next →
        ∀ n, budgetOf next n ≤ budgetOf prev n)) :=
  ⟨⟨by decide, by decide⟩,
    c3_budget_safety shId oracleHundredFifty 45 teamsBig [itemA]
      (fun _ _ ts => List.Perm.refl ts) (by decide) (by decide)⟩

/-! ## Claim C7: the accounting identity -/

/-- C7: at game end, each team's final budget equals its starting
budget minus the sum of the winning bids of the auctions it won. -/
theorem c7_accounting (sh : Nat → Nat → List Team → List Team)
    (oracle : GameState → Option String) (maxIter : Nat)
    (teams : List Team) (items : List Item)
    (hsh : ∀ r i ts, (sh r i ts).Perm ts)
    (hnd : (teams.map (·.name)).Nodup) :
    ∀ t ∈ teams,
      budgetOf (runGame sh oracle maxIter teams items).teams t.name =
        t.budget -
          ((((runGame sh oracle maxIter teams items).results.filter
              (fun r => r.winning_team == some t.name)).map (·.winning_bid))).sum := by
  rcases runGame_eq_chain sh oracle maxIter teams items hsh hnd with
    ⟨sts, rs, heq, hchain, _⟩
  rw [heq]
  intro t ht
  rw [budgetChain_total teams sts rs hchain t.name, budgetOf_eq_of_nodup teams t hnd ht]

/-- Witness for C7 on a concrete game: X pays 100, Y pays nothing. -/
theorem c7_witness :
    (teamsBig.map (·.name)).Nodup ∧
    (∀ t ∈ teamsBig,
      budgetOf (runGame shId oracleHundredFifty 45 teamsBig [itemA]).teams t.name =
        t.budget -
          ((((runGame shId oracleHundredFifty 45 teamsBig [itemA]).results.filter
              (fun r => r.winning_team == some t.name)).map (·.winning_bid))).sum) :=
  ⟨by decide,
    c7_accounting shId oracleHundredFifty 45 teamsBig [itemA]
      (fun _ _ ts => List.Perm.refl ts) (by decide)⟩


/-! ## Claim C10: an all-zero first iteration ends the auction at once -/

/-- C10: if every bid of the first iteration is 0, the auction
terminates after exactly that one iteration with an unsold result and
the team list unchanged. -/
theorem c10_all_zero_unsold (sh : Nat → Nat → List Team → List Team)
    (oracle : GameState → Option String) (teams : List Team) (remaining : List Item)
    (history : List AuctionResult) (item : Item) (round maxIter : Nat)
    (hsh : ∀ r i ts, (sh r i ts).Perm ts)
    (hne : teams ≠ [])
    (hmax : 1 ≤ maxIter)
    (hz : ∀ b ∈ iterationBids oracle teams remaining history item 1 round 0 none []
        (sh round 1 teams), b.amount = 0) :
    (runSingleAuction sh oracle teams remaining history item round
        maxIter).result.winning_team = none ∧
    (runSingleAuction sh oracle teams remaining history item round
        maxIter).result.winning_bid = 0 ∧
    (runSingleAuction sh oracle teams remaining history item round
        maxIter).result.iterations = 1 ∧
    (runSingleAuction sh oracle teams remaining history item round maxIter).teams = teams := by
  obtain ⟨n, rfl⟩ : ∃ n, maxIter = n + 1 := ⟨maxIter - 1, by omega⟩
  have horder : sh round 1 teams ≠ [] := by
    intro hc
    have hl := (hsh round 1 teams).length_eq
    rw [hc] at hl
    exact hne (List.length_eq_zero.mp hl.symm)
  have hbne : iterationBids oracle teams remaining history item 1 round 0 none []
      (sh round 1 teams) ≠ [] :=
    iterationBids_ne_nil oracle teams remaining history item 1 round 0 none []
      (sh round 1 teams) horder
  have hbe : ¬ ((iterationBids oracle teams remaining history item 1 round 0 none []
      (sh round 1 teams)).isEmpty = true) := by
    rw [List.isEmpty_iff]; exact hbne
  have hle : maxAmt (iterationBids oracle teams remaining history item 1 round 0 none []
      (sh round 1 teams)) ≤ 0 :=
    maxAmt_le _ 0 hbne (fun b hb => le_of_eq (hz b hb))
  have hngt : ¬ (maxAmt (iterationBids oracle teams remaining history item 1 round 0 none []
      (sh round 1 teams)) > (0 : Int)) := by omega
  have hcond : ¬ ((0 : Int) > 0 ∧ pyTruthyStr none = true) := by
    intro hc; exact absurd hc.1 (by omega)
  rw [show runSingleAuction sh oracle teams remaining history item round (n + 1) =
      auctionLoop sh oracle teams remaining history item round (n + 1)
        (n + 1) 1 [] [] 0 none [] from rfl,
    auctionLoop_succ, if_neg hbe, if_neg hngt, if_neg hcond]
  exact ⟨rfl, rfl, rfl, rfl⟩

/-- Witness for C10: two well-funded teams whose reasoning service
always answers 0. -/
theorem c10_witness :
    (teamsBig ≠ [] ∧
      (∀ b ∈ iterationBids oracleZero teamsBig [itemA] [] itemA 1 1 0 none []
        (shId 1 1 teamsBig), b.amount = 0)) ∧
    ((runSingleAuction shId oracleZero teamsBig [itemA] [] itemA 1
        45).result.winning_team = none ∧
      (runSingleAuction shId oracleZero teamsBig [itemA] [] itemA 1
        45).result.winning_bid = 0 ∧
      (runSingleAuction shId oracleZero teamsBig [itemA] [] itemA 1
        45).result.iterations = 1 ∧
      (runSingleAuction shId oracleZero teamsBig [itemA] [] itemA 1 45).teams = teamsBig) :=
  ⟨⟨by decide, by decide⟩,
    c10_all_zero_unsold shId oracleZero teamsBig [itemA] [] itemA 1 45
      (fun _ _ ts => List.Perm.refl ts) (by decide) (by decide) (by decide)⟩

/-! ## Claim C1: no early termination on budget domination -/

/-- C1 (counterexample): with X(budget 50) and Y(budget 5), X bids 10
in iteration 1 and leads at an amount above every other budget — the
claim demands the auction end at iteration 1 — yet the code runs a full
second bidding iteration (both teams bid again at iteration 2) and only
then awards the item, reporting 2 iterations. -/
theorem c1_counterexample :
    (∀ t ∈ teamsXY, t.name ≠ "X" → t.budget < 10) ∧
    (runSingleAuction shId oracleTenZero teamsXY [itemA] [] itemA 1
        45).result.all_bids.filter (fun b => b.iteration == 1) =
      [⟨"X", 10, 1⟩, ⟨"Y", 0, 1⟩] ∧
    (runSingleAuction shId oracleTenZero teamsXY [itemA] [] itemA 1
        45).result.all_bids.filter (fun b => b.iteration == 2) =
      [⟨"X", 10, 2⟩, ⟨"Y", 0, 2⟩] ∧
    (runSingleAuction shId oracleTenZero teamsXY [itemA] [] itemA 1
        45).result.winning_team = some "X" ∧
    (runSingleAuction shId oracleTenZero teamsXY [itemA] [] itemA 1
        45).result.winning_bid = 10 ∧
    (runSingleAuction shId oracleTenZero teamsXY [itemA] [] itemA 1
        45).result.iterations = 2 := by
  exact ⟨by decide, by decide, by decide, by decide, by decide, by decide⟩

/-- C1 (amended): the engine has no budget-domination early exit; when
the frozen leader amount `hb` of leader `L` exceeds every rival's
budget, the auction still runs one further bidding iteration, and —
provided the leader does not outbid itself — terminates at the end of
that extra iteration, awarding the leader at the frozen amount (rival
bids are clamped below `hb`, so no one can outbid). -/
theorem c1_amended (sh : Nat → Nat → List Team → List Team)
    (oracle : GameState → Option String) (teams : List Team) (remaining : List Item)
    (history : List AuctionResult) (item : Item) (round maxIter fuel it : Nat)
    (allBids winHist : List Bid) (hb : Int) (L : String) (log : List GameState)
    (hsh : ∀ r i ts, (sh r i ts).Perm ts)
    (hne : teams ≠ [])
    (hpos : 0 < hb) (hL : L ≠ "")
    (hbudget : ∀ t ∈ teams, t.name ≠ L → t.budget < hb)
    (hleader : ∀ b ∈ iterationBids oracle teams remaining history item it round hb (some L)
        winHist (sh round it teams), b.team_name = L → b.amount ≤ hb) :
    (auctionLoop sh oracle teams remaining history item round maxIter (fuel + 1) it allBids
        winHist hb (some L) log).result.winning_team = some L ∧
    (auctionLoop sh oracle teams remaining history item round maxIter (fuel + 1) it allBids
        winHist hb (some L) log).result.winning_bid = hb ∧
    (auctionLoop sh oracle teams remaining history item round maxIter (fuel + 1) it allBids
        winHist hb (some L) log).result.iterations = it ∧
    (auctionLoop sh oracle teams remaining history item round maxIter (fuel + 1) it allBids
        winHist hb (some L) log).teams = winTeams teams L item hb := by
  have horder : sh round it teams ≠ [] := by
    intro hc
    have hl := (hsh round it teams).length_eq
    rw [hc] at hl
    exact hne (List.length_eq_zero.mp hl.symm)
  have hbne : iterationBids oracle teams remaining history item it round hb (some L) winHist
      (sh round it teams) ≠ [] :=
    iterationBids_ne_nil oracle teams remaining history item it round hb (some L) winHist
      (sh round it teams) horder
  have hbe : ¬ ((iterationBids oracle teams remaining history item it round hb (some L)
      winHist (sh round it teams)).isEmpty = true) := by
    rw [List.isEmpty_iff]; exact hbne
  have hall : ∀ b ∈ iterationBids oracle teams remaining history item it round hb (some L)
      winHist (sh round it teams), b.amount ≤ hb := by
    intro b hbmem
    rcases iterationBids_mem oracle teams remaining history item it round hb (some L) winHist
      (sh round it teams) b hbmem with ⟨t, htord, hname, hle, _, _⟩
    by_cases hTL : t.name = L
    · exact hleader b hbmem (hname.trans hTL)
    · have ht : t ∈ teams := (hsh round it teams).mem_iff.mp htord
      have := hbudget t ht hTL
      omega
  have hngt : ¬ (maxAmt (iterationBids oracle teams remaining history item it round hb
      (some L) winHist (sh round it teams)) > hb) := by
    have := maxAmt_le _ hb hbne hall
    omega
  have hcond : hb > 0 ∧ pyTruthyStr (some L) = true := by
    refine ⟨hpos, ?_⟩
    simp [pyTruthyStr, hL]
  rw [auctionLoop_succ, if_neg hbe, if_neg hngt, if_pos hcond]
  exact ⟨rfl, rfl, rfl, rfl⟩

/-- Witness for the amended C1, at the state reached after iteration 1
of the concrete counterexample run: leader X at 10, Y's budget 5. -/
theorem c1_amended_witness :
    (teamsXY ≠ [] ∧ (0 : Int) < 10 ∧ "X" ≠ "" ∧
      (∀ t ∈ teamsXY, t.name ≠ "X" → t.budget < 10) ∧
      (∀ b ∈ iterationBids oracleTenZero teamsXY [itemA] [] itemA 2 1 10 (some "X")
        [⟨"X", 10, 1⟩] (shId 1 2 teamsXY), b.team_name = "X" → b.amount ≤ 10)) ∧
    ((auctionLoop shId oracleTenZero teamsXY [itemA] [] itemA 1 45 43 2
        [⟨"X", 10, 1⟩, ⟨"Y", 0, 1⟩] [⟨"X", 10, 1⟩] 10 (some "X") []).result.winning_team =
      some "X" ∧
     (auctionLoop shId oracleTenZero teamsXY [itemA] [] itemA 1 45 43 2
        [⟨"X", 10, 1⟩, ⟨"Y", 0, 1⟩] [⟨"X", 10, 1⟩] 10 (some "X") []).result.winning_bid = 10 ∧
     (auctionLoop shId oracleTenZero teamsXY [itemA] [] itemA 1 45 43 2
        [⟨"X", 10, 1⟩, ⟨"Y", 0, 1⟩] [⟨"X", 10, 1⟩] 10 (some "X") []).result.iterations = 2 ∧
     (auctionLoop shId oracleTenZero teamsXY [itemA] [] itemA 1 45 43 2
        [⟨"X", 10, 1⟩, ⟨"Y", 0, 1⟩] [⟨"X", 10, 1⟩] 10 (some "X") []).teams =
      winTeams teamsXY "X" itemA 10) :=
  ⟨⟨by decide, by decide, by decide, by decide, by decide⟩,
    c1_amended shId oracleTenZero teamsXY [itemA] [] itemA 1 45 42 2
      [⟨"X", 10, 1⟩, ⟨"Y", 0, 1⟩] [⟨"X", 10, 1⟩] 10 "X" []
      (fun _ _ ts => List.Perm.refl ts) (by decide) (by decide) (by decide)
      (by decide) (by decide)⟩


/-! ## Claim C2: ties resolve to the first bidder in iteration order -/

/-- Decomposition of a successful linear search: the list splits at the
first element satisfying the predicate, and nothing before it
satisfies the predicate. -/
theorem find?_decomp {α : Type} (p : α → Bool) (l : List α) (b : α)
    (h : l.find? p = some b) :
    ∃ pre post, l = pre ++ b :: post ∧ p b = true ∧ ∀ x ∈ pre, p x = false := by
  induction l with
  | nil => cases h
  | cons a l ih =>
    by_cases hpa : p a
    · rw [List.find?_cons_of_pos _ hpa] at h
      obtain rfl : a = b := by injection h
      exact ⟨[], l, rfl, hpa, by simp⟩
    · rw [List.find?_cons_of_neg _ (by simpa using hpa)] at h
      rcases ih h with ⟨pre, post, heq, hb, hpre⟩
      refine ⟨a :: pre, post, by rw [heq]; rfl, hb, ?_⟩
      intro x hx
      rcases List.mem_cons.mp hx with rfl | hx2
      · simpa using hpa
      · exact hpre x hx2

/-- C2: in an iteration whose maximum `m` beats the frozen leader and
is attained by two or more bids, the new leader recorded by the engine
is the bid occurring first in that iteration's shuffled order: the
order splits as `pre ++ winner :: post` with no bid in `pre` at the
maximum, so position in the randomized order — never amount comparison
alone — decides the tie. -/
theorem c2_tie_first_in_order (bids : List Bid) (hb m : Int)
    (_hm : m = maxAmt bids)
    (_himp : m > hb)
    (htie : 2 ≤ (bids.filter (fun b => b.amount == m)).length) :
    ∃ pre b post, bids = pre ++ b :: post ∧ b.amount = m ∧
      firstLeader bids m = b.team_name ∧
      ∀ b2 ∈ pre, b2.amount ≠ m := by
  have hne : bids.filter (fun b => b.amount == m) ≠ [] := by
    intro hc; rw [hc] at htie; simp at htie
  rcases List.exists_mem_of_ne_nil _ hne with ⟨b0, hb0⟩
  have hb0m : b0 ∈ bids ∧ (b0.amount == m) = true := List.mem_filter.mp hb0
  have hsome : (bids.find? (fun x => x.amount == m)).isSome := by
    rw [List.find?_isSome]
    exact ⟨b0, hb0m.1, hb0m.2⟩
  rcases Option.isSome_iff_exists.mp hsome with ⟨b, hfind⟩
  rcases find?_decomp (fun x => x.amount == m) bids b hfind with ⟨pre, post, heq, hpb, hpre⟩
  refine ⟨pre, b, post, heq, by simpa using hpb, ?_, ?_⟩
  · simp [firstLeader, hfind]
  · intro b2 h2
    have := hpre b2 h2
    simpa using this

/-- Witness for C2: X and Y tied at 100 ahead of the frozen leader 0;
the split certifies X, the first in order, as the recorded leader. -/
theorem c2_witness :
    (100 = maxAmt tiedBids ∧ (100 : Int) > 0 ∧
      2 ≤ (tiedBids.filter (fun b => b.amount == 100)).length) ∧
    (∃ pre b post, tiedBids = pre ++ b :: post ∧ b.amount = 100 ∧
      firstLeader tiedBids 100 = b.team_name ∧
      ∀ b2 ∈ pre, b2.amount ≠ 100) :=
  ⟨⟨by decide, by decide, by decide⟩,
    c2_tie_first_in_order tiedBids 0 100 (by decide) (by decide) (by decide)⟩

/-! ## Claim C4: what the per-iteration snapshots contain -/

/-- Every game state built for one iteration carries that iteration's
frozen leader amount, leader identity and bid-history snapshot. -/
theorem iterationStates_fields (teams : List Team) (remaining : List Item)
    (history : List AuctionResult) (item : Item) (iteration round : Nat)
    (hb : Int) (hber : Option String) (histBids : List Bid) (order : List Team) :
    ∀ gs ∈ iterationStates teams remaining history item iteration round hb hber histBids
        order,
      gs.current_iteration = iteration ∧ gs.current_highest_bid = hb ∧
      gs.current_highest_bidder = hber ∧ gs.bids_history = histBids := by
  intro gs hgs
  rcases List.mem_map.mp hgs with ⟨t, _, rfl⟩
  exact ⟨rfl, rfl, rfl, rfl⟩

/-- Snapshot uniformity along the whole iteration loop: any two logged
game states of the same iteration agree on the frozen leader amount,
leader identity and bid history. -/
theorem auctionLoop_log_uniform (sh : Nat → Nat → List Team → List Team)
    (oracle : GameState → Option String) (teams : List Team) (remaining : List Item)
    (history : List AuctionResult) (item : Item) (round maxIter : Nat) :
    ∀ (fuel it : Nat) (allBids winHist : List Bid) (hb : Int) (hber : Option String)
      (log : List GameState),
      (∀ gs ∈ log, gs.current_iteration < it) →
      (∀ gs1 ∈ log, ∀ gs2 ∈ log, gs1.current_iteration = gs2.current_iteration →
        gs1.current_highest_bid = gs2.current_highest_bid ∧
        gs1.current_highest_bidder = gs2.current_highest_bidder ∧
        gs1.bids_history = gs2.bids_history) →
      ∀ gs1 ∈ (auctionLoop sh oracle teams remaining history item round maxIter fuel it
          allBids winHist hb hber log).log,
        ∀ gs2 ∈ (auctionLoop sh oracle teams remaining history item round maxIter fuel it
          allBids winHist hb hber log).log,
        gs1.current_iteration = gs2.current_iteration →
        gs1.current_highest_bid = gs2.current_highest_bid ∧
        gs1.current_highest_bidder = gs2.current_highest_bidder ∧
        gs1.bids_history = gs2.bids_history := by
  intro fuel
  induction fuel with
  | zero =>
    intro it allBids winHist hb hber log hlt huni
    rw [auctionLoop_zero]
    by_cases hc : hb > 0 ∧ pyTruthyStr hber
    · simp only [if_pos hc]; exact huni
    · simp only [if_neg hc]; exact huni
  | succ fuel ih =>
    intro it allBids winHist hb hber log hlt huni
    have hlt2 : ∀ gs ∈ log ++ iterationStates teams remaining history item it round hb hber
        winHist (sh round it teams), gs.current_iteration < it + 1 := by
      intro gs hgs
      rcases List.mem_append.mp hgs with h | h
      · have := hlt gs h; omega
      · have := (iterationStates_fields teams remaining history item it round hb hber winHist
          (sh round it teams) gs h).1
        omega
    have huni2 : ∀ gs1 ∈ log ++ iterationStates teams remaining history item it round hb hber
        winHist (sh round it teams),
        ∀ gs2 ∈ log ++ iterationStates teams remaining history item it round hb hber winHist
          (sh round it teams),
        gs1.current_iteration = gs2.current_iteration →
        gs1.current_highest_bid = gs2.current_highest_bid ∧
        gs1.current_highest_bidder = gs2.current_highest_bidder ∧
        gs1.bids_history = gs2.bids_history := by
      intro gs1 h1 gs2 h2 hit
      rcases List.mem_append.mp h1 with h1 | h1 <;> rcases List.mem_append.mp h2 with h2 | h2
      · exact huni gs1 h1 gs2 h2 hit
      · have e1 := hlt gs1 h1
        have e2 := (iterationStates_fields teams remaining history item it round hb hber
          winHist (sh round it teams) gs2 h2).1
        exact absurd (hit.trans e2) (by omega)
      · have e1 := (iterationStates_fields teams remaining history item it round hb hber
          winHist (sh round it teams) gs1 h1).1
        have e2 := hlt gs2 h2
        exact absurd (e1.symm.trans hit) (by omega)
      · obtain ⟨_, b1, c1, d1⟩ := iterationStates_fields teams remaining history item it round
          hb hber winHist (sh round it teams) gs1 h1
        obtain ⟨_, b2, c2, d2⟩ := iterationStates_fields teams remaining history item it round
          hb hber winHist (sh round it teams) gs2 h2
        exact ⟨b1.trans b2.symm, c1.trans c2.symm, d1.trans d2.symm⟩
    rw [auctionLoop_succ]
    by_cases hbe : (iterationBids oracle teams remaining history item it round hb hber winHist
        (sh round it teams)).isEmpty
    · simp only [if_pos hbe]
      exact ih (it + 1) _ _ hb hber _ hlt2 huni2
    · simp only [if_neg hbe]
      by_cases hm : maxAmt (iterationBids oracle teams remaining history item it round hb hber
          winHist (sh round it teams)) > hb
      · simp only [if_pos hm]
        exact ih (it + 1) _ _ _ _ _ hlt2 huni2
      · simp only [if_neg hm]
        by_cases hc : hb > 0 ∧ pyTruthyStr hber
        · simp only [if_pos hc]; exact huni2
        · simp only [if_neg hc]; exact huni2

/-- C4 (counterexample): in iteration 2 of a concrete auction the
snapshot's bid history holds only the iteration-1 winning bid
(X at 100), not the complete ordered list of iteration-1 bids
(X at 100 and Y at 50), refuting the claimed equality with the full
per-item bid list. -/
theorem c4_counterexample :
    ((runSingleAuction shId oracleHundredFifty teamsBig [itemA] [] itemA 1 45).log.getD 2
        gsDummy).current_iteration = 2 ∧
    ((runSingleAuction shId oracleHundredFifty teamsBig [itemA] [] itemA 1 45).log.getD 2
        gsDummy).bids_history = [⟨"X", 100, 1⟩] ∧
    (runSingleAuction shId oracleHundredFifty teamsBig [itemA] [] itemA 1
        45).result.all_bids.filter (fun b => b.iteration == 1) =
      [⟨"X", 100, 1⟩, ⟨"Y", 50, 1⟩] ∧
    ((runSingleAuction shId oracleHundredFifty teamsBig [itemA] [] itemA 1 45).log.getD 2
        gsDummy).bids_history ≠
      (runSingleAuction shId oracleHundredFifty teamsBig [itemA] [] itemA 1
        45).result.all_bids.filter (fun b => b.iteration == 1) :=
  ⟨by decide, by decide, by decide, by decide⟩

/-- C4 (amended): the snapshot handed to every agent of one iteration
is identical — same frozen leader amount, same leader identity, and the
same bid history, the latter being the accumulated winning-bids
history (one bid per leader-raising iteration), not the full bid
list. -/
theorem c4_snapshots_uniform (sh : Nat → Nat → List Team → List Team)
    (oracle : GameState → Option String) (teams : List Team) (remaining : List Item)
    (history : List AuctionResult) (item : Item) (round maxIter : Nat) :
    ∀ gs1 ∈ (runSingleAuction sh oracle teams remaining history item round maxIter).log,
    ∀ gs2 ∈ (runSingleAuction sh oracle teams remaining history item round maxIter).log,
      gs1.current_iteration = gs2.current_iteration →
      gs1.current_highest_bid = gs2.current_highest_bid ∧
      gs1.current_highest_bidder = gs2.current_highest_bidder ∧
      gs1.bids_history = gs2.bids_history :=
  auctionLoop_log_uniform sh oracle teams remaining history item round maxIter maxIter 1
    [] [] 0 none [] (by intro gs h; cases h) (by intro gs1 h1; cases h1)

/-- Witness for the amended C4: the two iteration-2 snapshots of the
concrete run agree on all frozen fields. -/
theorem c4_witness :
    (((runSingleAuction shId oracleHundredFifty teamsBig [itemA] [] itemA 1 45).log.getD 2
        gsDummy) ∈
      (runSingleAuction shId oracleHundredFifty teamsBig [itemA] [] itemA 1 45).log ∧
     ((runSingleAuction shId oracleHundredFifty teamsBig [itemA] [] itemA 1 45).log.getD 3
        gsDummy) ∈
      (runSingleAuction shId oracleHundredFifty teamsBig [itemA] [] itemA 1 45).log ∧
     ((runSingleAuction shId oracleHundredFifty teamsBig [itemA] [] itemA 1 45).log.getD 2
        gsDummy).current_iteration =
      ((runSingleAuction shId oracleHundredFifty teamsBig [itemA] [] itemA 1 45).log.getD 3
        gsDummy).current_iteration) ∧
    (((runSingleAuction shId oracleHundredFifty teamsBig [itemA] [] itemA 1 45).log.getD 2
        gsDummy).current_highest_bid =
      ((runSingleAuction shId oracleHundredFifty teamsBig [itemA] [] itemA 1 45).log.getD 3
        gsDummy).current_highest_bid ∧
     ((runSingleAuction shId oracleHundredFifty teamsBig [itemA] [] itemA 1 45).log.getD 2
        gsDummy).current_highest_bidder =
      ((runSingleAuction shId oracleHundredFifty teamsBig [itemA] [] itemA 1 45).log.getD 3
        gsDummy).current_highest_bidder ∧
     ((runSingleAuction shId oracleHundredFifty teamsBig [itemA] [] itemA 1 45).log.getD 2
        gsDummy).bids_history =
      ((runSingleAuction shId oracleHundredFifty teamsBig [itemA] [] itemA 1 45).log.getD 3
        gsDummy).bids_history) :=
  ⟨⟨by decide, by decide, by decide⟩,
    c4_snapshots_uniform shId oracleHundredFifty teamsBig [itemA] [] itemA 1 45
      ((runSingleAuction shId oracleHundredFifty teamsBig [itemA] [] itemA 1 45).log.getD 2
        gsDummy) (by decide)
      ((runSingleAuction shId oracleHundredFifty teamsBig [itemA] [] itemA 1 45).log.getD 3
        gsDummy) (by decide) (by decide)⟩


/-! ## Claim C8: the final ranking -/

/-- Lexicographic key comparison is reflexive. -/
theorem keyLe_refl (x : Nat × Int × Int) : keyLe x x := by unfold keyLe; omega

/-- Lexicographic key comparison is total. -/
theorem keyLe_total (x y : Nat × Int × Int) : keyLe x y ∨ keyLe y x := by
  unfold keyLe; omega

/-- Lexicographic key comparison is transitive. -/
theorem keyLe_trans (x y z : Nat × Int × Int) (h1 : keyLe x y) (h2 : keyLe y z) :
    keyLe x z := by
  unfold keyLe at h1 h2 ⊢; omega

/-- Inserting a row into a sorted pile passes only over rows of
strictly greater key, so per-key filtrations see the new row first. -/
theorem orderedInsert_filter_key (a : ScoreRow) (l : List ScoreRow) (k : Nat × Int × Int) :
    (l.orderedInsert scoreGe a).filter (fun s => scoreKey s == k) =
      if scoreKey a = k then a :: l.filter (fun s => scoreKey s == k)
      else l.filter (fun s => scoreKey s == k) := by
  rw [List.orderedInsert_eq_take_drop, List.filter_append]
  by_cases hk : scoreKey a = k
  · have hnil : (l.takeWhile (fun b => ¬ scoreGe a b)).filter
        (fun s => scoreKey s == k) = [] := by
      rw [List.filter_eq_nil_iff]
      intro b hbmem
      have hb := List.mem_takeWhile_imp hbmem
      have hnge : ¬ scoreGe a b := by simpa using hb
      have hne : scoreKey b ≠ scoreKey a := by
        intro hc
        exact hnge (by unfold scoreGe; rw [hc]; exact keyLe_refl _)
      simp only [beq_eq_false_iff_ne, ne_eq, Bool.not_eq_true]
      rw [← hk]
      simpa using hne
    have hpa : (scoreKey a == k) = true := by simp [hk]
    rw [hnil, List.filter_cons, hpa]
    simp only [if_pos hk, List.nil_append, if_true]
    have hsplit : l.filter (fun s => scoreKey s == k) =
        (l.takeWhile (fun b => ¬ scoreGe a b)).filter (fun s => scoreKey s == k) ++
        (l.dropWhile (fun b => ¬ scoreGe a b)).filter (fun s => scoreKey s == k) := by
      rw [← List.filter_append, List.takeWhile_append_dropWhile]
    rw [hsplit, hnil, List.nil_append]
  · have hpa : (scoreKey a == k) = false := by simp [hk]
    rw [List.filter_cons, hpa]
    simp only [if_neg hk, Bool.false_eq_true, if_false]
    rw [← List.filter_append, List.takeWhile_append_dropWhile]

/-- Stability of the ranking sort: for every key value, the rows
carrying that key appear in the sorted output in their original
(insertion) order. -/
theorem insertionSort_filter_key (l : List ScoreRow) (k : Nat × Int × Int) :
    (List.insertionSort scoreGe l).filter (fun s => scoreKey s == k) =
      l.filter (fun s => scoreKey s == k) := by
  induction l with
  | nil => rfl
  | cons a l ih =>
    rw [List.insertionSort, orderedInsert_filter_key, List.filter_cons]
    by_cases hk : scoreKey a = k
    · have hpa : (scoreKey a == k) = true := by simp [hk]
      rw [if_pos hk, hpa, ih]
      simp
    · have hpa : (scoreKey a == k) = false := by simp [hk]
      rw [if_neg hk, hpa, ih]
      simp

/-- Numbering an enumerated list from 1 gives consecutive ranks. -/
theorem enumFrom_map_rank {α : Type} (l : List α) : ∀ n : Nat,
    (l.enumFrom n).map (fun p => p.1 + 1) = List.range' (n + 1) l.length := by
  induction l with
  | nil => intro n; rfl
  | cons a l ih =>
    intro n
    show (n + 1) :: (l.enumFrom (n + 1)).map (fun p => p.1 + 1) = _
    rw [ih (n + 1), List.length_cons, List.range'_succ]

/-- The ranks of `calculateRankings` are 1, 2, ..., number of teams. -/
theorem calculateRankings_rank (teams : List Team) :
    (calculateRankings teams).map (·.rank) = List.range' 1 teams.length := by
  unfold calculateRankings
  rw [List.map_map]
  have hfun : ((fun r : FinalRanking => r.rank) ∘
      (fun p : Nat × ScoreRow => (⟨p.1 + 1, p.2.name, p.2.required_count, p.2.total_quality,
        p.2.budget, p.2.items⟩ : FinalRanking))) = fun p : Nat × ScoreRow => p.1 + 1 := rfl
  rw [hfun]
  have henum := enumFrom_map_rank (sortedScores teams) 0
  have hlen : (sortedScores teams).length = teams.length := by
    unfold sortedScores
    rw [List.length_insertionSort, List.length_map]
  rw [show List.enum (sortedScores teams) = (sortedScores teams).enumFrom 0 from rfl,
    henum, hlen]

/-- C8: the final ranking is computed by a stable descending sort on
(required-count, total-quality, budget): the ranked rows are a
permutation of the team score rows, pairwise ordered by the
lexicographic descending key, rows with equal keys keep their
insertion order, ranks run 1..n, and the computation is
deterministic. -/
theorem c8_ranking_correct (teams : List Team) :
    (sortedScores teams).Perm (teams.map scoreRow) ∧
    List.Sorted scoreGe (sortedScores teams) ∧
    (∀ k : Nat × Int × Int,
      (sortedScores teams).filter (fun s => scoreKey s == k) =
        (teams.map scoreRow).filter (fun s => scoreKey s == k)) ∧
    (calculateRankings teams).map (·.rank) = List.range' 1 teams.length ∧
    calculateRankings teams = calculateRankings teams :=
  ⟨List.perm_insertionSort scoreGe _, List.sorted_insertionSort scoreGe _,
    fun k => insertionSort_filter_key _ k, calculateRankings_rank teams, rfl⟩

end Wolf
